import Mathlib

/-!
Verification of the `read_exact` repository artifact.

The shipped source is a single file, `src/search-index.js`, a generated
documentation search index: a data literal assigned into a table, followed by
one call handing the table to an external consumer.  We embed that literal and
the program trace directly.  The bounded-read utility that the index describes
(`read_exact_or_eof`) is not part of the shipped sources; it is modelled from
the specification's contract and its properties are proved over that model.
-/

/-- A JSON-like value, sufficient for the search-index literal: `null`, numbers
(all numbers occurring in the artifact are small naturals), strings, arrays and
objects (ordered field lists). -/
inductive Json where
  | null : Json
  | num : Nat → Json
  | str : String → Json
  | arr : List Json → Json
  | obj : List (String × Json) → Json

/-- The document object assigned to `searchIndex["read_exact"]` in
`src/search-index.js`, field for field and in written order. -/
def readExactDoc : Json :=
  .obj
    [ ("doc", .str "Provides a variant of `read_exact` that succeeds on EOF if no data has been\nread."),
      ("items", .arr
        [ .arr [.num 8, .str "ReadExactExt", .str "read_exact",
                .str "An extension trait that applies to all `std::io::Read` types.",
                .null, .null],
          .arr [.num 10, .str "read_exact_or_eof", .str "",
                .str "Reads exactly the number of bytes to fill `buf`, or zero.",
                .num 0, .null] ]),
      ("paths", .arr [ .arr [.num 8, .str "ReadExactExt"] ]) ]

/-- JavaScript property assignment on an object modelled as an ordered field
list: overwrite in place if the key is present, else append. -/
def objSet (o : List (String × Json)) (k : String) (v : Json) : List (String × Json) :=
  if o.any (fun p => p.1 == k) then o.map (fun p => if p.1 == k then (k, v) else p)
  else o ++ [(k, v)]

/-- `var searchIndex = {};` — the table starts empty. -/
def searchIndexInit : List (String × Json) := []

/-- The table after `searchIndex["read_exact"] = {...};`, the only assignment
performed by `src/search-index.js`. -/
def searchIndex : List (String × Json) :=
  objSet searchIndexInit "read_exact" readExactDoc

/-- The runtime actions `src/search-index.js` can perform: a keyed assignment
into the table, or the external `initSearch` call, which receives the table and
whose result is not bound (the action carries no return value). -/
inductive JsAction where
  | assignKey : String → Json → JsAction
  | callInitSearch : Json → JsAction

/-- The complete runtime trace of `src/search-index.js`, in program order:
the single data-literal assignment, then the single `initSearch` call. -/
def programTrace : List JsAction :=
  [ .assignKey "read_exact" readExactDoc,
    .callInitSearch (.obj searchIndex) ]

def JsAction.isAssign : JsAction → Bool
  | .assignKey _ _ => true
  | _ => false

def JsAction.isCall : JsAction → Bool
  | .callInitSearch _ => true
  | _ => false

/-- No mutation of the table occurs at or after any external call in the
trace. -/
def noAssignAfterCall : List JsAction → Bool
  | [] => true
  | a :: rest =>
      (if a.isCall then rest.all (fun x => !x.isAssign) else true) && noAssignAfterCall rest

def Json.isNum : Json → Bool
  | .num _ => true
  | _ => false

def Json.isStr : Json → Bool
  | .str _ => true
  | _ => false

def Json.isNull : Json → Bool
  | .null => true
  | _ => false

def Json.isArr : Json → Bool
  | .arr _ => true
  | _ => false

def Json.isObj : Json → Bool
  | .obj _ => true
  | _ => false

/-- Field lookup in an object value. -/
def Json.get (j : Json) (k : String) : Option Json :=
  match j with
  | .obj fs => fs.lookup k
  | _ => none

/-- The keys of an object value, in written order. -/
def Json.keys : Json → List String
  | .obj fs => fs.map Prod.fst
  | _ => []

/-- The `items` list of a document object. -/
def itemsOf (j : Json) : List Json :=
  match j.get "items" with
  | some (.arr xs) => xs
  | _ => []

/-- The `paths` list of a document object. -/
def pathsOf (j : Json) : List Json :=
  match j.get "paths" with
  | some (.arr xs) => xs
  | _ => []

/-- Positional access into an item tuple. -/
def tupleField (j : Json) (i : Nat) : Option Json :=
  match j with
  | .arr xs => xs[i]?
  | _ => none

/-- The name of an item descriptor: its second positional field. -/
def itemName (j : Json) : Option String :=
  match tupleField j 1 with
  | some (.str s) => some s
  | _ => none

/-- The kind code of an item descriptor: its first positional field. -/
def itemKind (j : Json) : Option Nat :=
  match tupleField j 0 with
  | some (.num n) => some n
  | _ => none

/-- The parent-type reference of an item descriptor: the fifth positional
field, the one that is `0` on the method entry and `null` on the trait entry
(cf. the `paths` cross-reference). -/
def itemParentRef (j : Json) : Option Json := tupleField j 4

/-- An item descriptor carries a non-null parent-type reference. -/
def hasParent (j : Json) : Bool :=
  match itemParentRef j with
  | some .null => false
  | some _ => true
  | none => false

/-- The parent reference of an item, when non-null, indexes into the given
paths list. -/
def parentRefValid (paths : List Json) (j : Json) : Bool :=
  match itemParentRef j with
  | some (.num p) => decide (p < paths.length)
  | some .null => true
  | _ => false

/-- A `paths` entry is a two-element descriptor of a numeric kind code and a
string name. -/
def isKindNamePair (j : Json) : Bool :=
  match j with
  | .arr [k, n] => k.isNum && n.isStr
  | _ => false

/-- The kind code of a paths entry. -/
def pathKind (j : Json) : Option Nat :=
  match j with
  | .arr [.num k, _] => some k
  | _ => none

/-- The name of a paths entry. -/
def pathName (j : Json) : Option String :=
  match j with
  | .arr [_, .str s] => some s
  | _ => none

/-- Item-tuple shape exactly as the spec words it: six positional fields — a
kind code, a name, a namespace, a doc string, a numeric cross-reference id, and
an optional (nullable) parent-type reference.  Stated for comparison against
the artifact's actual item tuples. -/
def specItemShape (j : Json) : Bool :=
  match j with
  | .arr [k, n, p, d, x, pr] =>
      k.isNum && n.isStr && p.isStr && d.isStr && x.isNum && (pr.isNull || pr.isNum)
  | _ => false

/-- Item-tuple shape with the fifth positional field also optional (nullable):
the trait entry of the artifact carries `null` there, so this is the shape the
data actually satisfies. -/
def amendedItemShape (j : Json) : Bool :=
  match j with
  | .arr [k, n, p, d, x, pr] =>
      k.isNum && n.isStr && p.isStr && d.isStr && (x.isNull || x.isNum) &&
        (pr.isNull || pr.isNum)
  | _ => false

/-!
The bounded-read-with-EOF-tolerance utility.

The crate's Rust implementation is not among the shipped sources (only the
search-index entry describing it is), so the model below follows the
specification's contract for `read_exact_or_eof`.
-/

/-- Modelled from the spec: a readable byte source, the missing Rust reader.
Successive underlying reads serve the byte chunks in order (each read hands
over at most the requested count from the front chunk); once the chunks are
exhausted the source either signals end-of-stream (`errAfter = none`) or raises
the lower-level I/O error `e` (`errAfter = some e`). -/
structure ByteSource where
  chunks : List (List Nat)
  errAfter : Option Nat

/-- Modelled from the spec: the outcome of one underlying read — some bytes
(an empty list signalling end-of-stream) or a lower-level I/O error. -/
inductive ReadOutcome where
  | bytes : List Nat → ReadOutcome
  | ioErr : Nat → ReadOutcome

/-- Modelled from the spec: one underlying read of at most `n` bytes, returning
the outcome and the advanced source. -/
def ByteSource.readStep (s : ByteSource) (n : Nat) : ReadOutcome × ByteSource :=
  match s.chunks with
  | [] =>
      match s.errAfter with
      | some e => (.ioErr e, s)
      | none => (.bytes [], s)
  | c :: rest =>
      (.bytes (c.take n),
       { chunks := if (c.drop n).isEmpty then rest else c.drop n :: rest,
         errAfter := s.errAfter })

/-- Modelled from the spec: the result of the bounded read — success carrying
the bytes filled, the distinguished "unexpected end of input" failure, or a
propagated lower-level I/O error. -/
inductive FillResult where
  | success : List Nat → FillResult
  | unexpectedEof : FillResult
  | ioError : Nat → FillResult

/-- Modelled from the spec: the single guarded read loop.  `filled` holds the
bytes read so far (its length is the running offset), `remaining` the bytes
still needed.  A zero-byte read ends the loop: success if nothing had been
read, the "unexpected end of input" failure otherwise; a lower-level error
propagates immediately. -/
def fillLoop (filled : List Nat) (remaining : Nat) (s : ByteSource) :
    FillResult × ByteSource :=
  match remaining with
  | 0 => (.success filled, s)
  | r + 1 =>
      match s.readStep (r + 1) with
      | (.bytes [], s') =>
          if filled.isEmpty then (.success filled, s') else (.unexpectedEof, s')
      | (.bytes (b :: bs), s') =>
          fillLoop (filled ++ b :: bs) (r + 1 - (b :: bs).length) s'
      | (.ioErr e, s') => (.ioError e, s')
termination_by remaining
decreasing_by simp only [List.length_cons]; omega

/-- Modelled from the spec: attempt to fill a destination buffer of length
`bufLen` completely from the source, returning the fill result and the final
source position. -/
def read_exact_or_eof (bufLen : Nat) (s : ByteSource) : FillResult × ByteSource :=
  fillLoop [] bufLen s

/-- Total number of bytes the source provides before its end. -/
def ByteSource.total (s : ByteSource) : Nat := s.chunks.flatten.length

/-- A well-formed source serves no empty chunk mid-stream: every underlying
read returns at least one byte until the source ends. -/
def ByteSource.wf (s : ByteSource) : Prop := ∀ c ∈ s.chunks, c ≠ []

/-- The chunk list left after the loop has consumed `n` bytes off the front. -/
def dropBytes (n : Nat) (cs : List (List Nat)) : List (List Nat) :=
  match n, cs with
  | 0, cs => cs
  | _ + 1, [] => []
  | n + 1, c :: rest =>
      if c.length ≤ n + 1 then dropBytes (n + 1 - c.length) rest
      else c.drop (n + 1) :: rest

/-- Loop invariant, enough-bytes case: when the source still offers at least
`remaining` bytes in well-formed chunks, the loop succeeds, appends exactly the
next `remaining` bytes to `filled`, and leaves the source right after them. -/
theorem fillLoop_enough (cs : List (List Nat)) :
    ∀ (filled : List Nat) (remaining : Nat) (err : Option Nat),
      (∀ c ∈ cs, c ≠ []) → remaining ≤ cs.flatten.length →
      fillLoop filled remaining ⟨cs, err⟩ =
        (.success (filled ++ cs.flatten.take remaining), ⟨dropBytes remaining cs, err⟩) := by
  induction cs with
  | nil =>
    intro filled remaining err _ hle
    simp only [List.flatten_nil, List.length_nil, Nat.le_zero] at hle
    subst hle
    simp [fillLoop, dropBytes]
  | cons c rest ih =>
    intro filled remaining err hwf hle
    obtain ⟨b, bs, rfl⟩ : ∃ b bs, c = b :: bs := by
      cases c with
      | nil => exact absurd rfl (hwf [] (by simp))
      | cons b bs => exact ⟨b, bs, rfl⟩
    cases remaining with
    | zero => simp [fillLoop, dropBytes]
    | succ r =>
      have hwf' : ∀ d ∈ rest, d ≠ [] := fun d hd => hwf d (List.mem_cons_of_mem _ hd)
      by_cases hbl : bs.length ≤ r
      · have htake : bs.take r = bs := List.take_of_length_le hbl
        have hdrop : bs.drop r = [] := List.drop_eq_nil_of_le hbl
        have hle' : r - bs.length ≤ rest.flatten.length := by
          simp only [List.flatten_cons, List.length_append, List.length_cons] at hle
          omega
        have hcond : (b :: bs).length ≤ r + 1 := by
          simp only [List.length_cons]
          omega
        simp only [fillLoop, ByteSource.readStep, List.take_succ_cons, List.drop_succ_cons,
          htake, hdrop, List.isEmpty_nil, if_true, List.length_cons, Nat.succ_sub_succ]
        rw [ih (filled ++ b :: bs) (r - bs.length) err hwf' hle']
        simp [dropBytes, hcond, List.take_append_eq_append_take,
          List.take_of_length_le hcond, Nat.succ_sub_succ, htake]
        rw [if_pos hbl]
      · have hr : r < bs.length := Nat.lt_of_not_le hbl
        have hlen : (bs.take r).length = r := by
          simp only [List.length_take]
          omega
        have hdrop : (bs.drop r).isEmpty = false := by
          rw [List.isEmpty_eq_false, Ne, List.drop_eq_nil_iff]
          omega
        have hcond : ¬ (b :: bs).length ≤ r + 1 := by
          simp only [List.length_cons]
          omega
        have htk : (b :: (bs ++ rest.flatten)).take (r + 1) = b :: bs.take r := by
          rw [List.take_succ_cons, List.take_append_of_le_length (Nat.le_of_lt hr)]
        simp only [fillLoop, ByteSource.readStep, List.take_succ_cons, List.drop_succ_cons,
          hdrop, Bool.false_eq_true, if_false, List.length_cons, hlen, Nat.sub_self,
          List.flatten_cons, List.cons_append, htk, dropBytes, hcond, if_neg hcond]
        simp
        rw [if_neg hbl]

/-- Loop invariant, short-source case under clean end-of-stream: when the
well-formed source offers fewer than `remaining` bytes and then ends, the loop
drains it and breaks on the zero-byte read — success if nothing at all was
read, the "unexpected end of input" failure otherwise. -/
theorem fillLoop_short_eof (cs : List (List Nat)) :
    ∀ (filled : List Nat) (remaining : Nat),
      (∀ c ∈ cs, c ≠ []) → cs.flatten.length < remaining →
      fillLoop filled remaining ⟨cs, none⟩ =
        (if filled.isEmpty && cs.isEmpty then .success filled else .unexpectedEof,
         ⟨[], none⟩) := by
  induction cs with
  | nil =>
    intro filled remaining _ hlt
    cases remaining with
    | zero => exact absurd hlt (Nat.not_lt_zero _)
    | succ r =>
      cases hf : filled.isEmpty <;>
        simp [fillLoop, ByteSource.readStep, hf]
  | cons c rest ih =>
    intro filled remaining hwf hlt
    obtain ⟨b, bs, rfl⟩ : ∃ b bs, c = b :: bs := by
      cases c with
      | nil => exact absurd rfl (hwf [] (by simp))
      | cons b bs => exact ⟨b, bs, rfl⟩
    have hwf' : ∀ d ∈ rest, d ≠ [] := fun d hd => hwf d (List.mem_cons_of_mem _ hd)
    simp only [List.flatten_cons, List.length_append, List.length_cons] at hlt
    cases remaining with
    | zero => exact absurd hlt (Nat.not_lt_zero _)
    | succ r =>
      have hbl : bs.length ≤ r := by omega
      have htake : bs.take r = bs := List.take_of_length_le hbl
      have hdrop : bs.drop r = [] := List.drop_eq_nil_of_le hbl
      have hlt' : rest.flatten.length < r - bs.length := by omega
      simp only [fillLoop, ByteSource.readStep, List.take_succ_cons, List.drop_succ_cons,
        htake, hdrop, List.isEmpty_nil, if_true, List.length_cons, Nat.succ_sub_succ]
      rw [ih (filled ++ b :: bs) (r - bs.length) hwf' hlt']
      simp

/-- Loop invariant, short-source case under a trailing lower-level error: when
the well-formed source offers fewer than `remaining` bytes and then raises the
I/O error `e`, the loop drains it and propagates `e` unchanged. -/
theorem fillLoop_short_err (cs : List (List Nat)) :
    ∀ (filled : List Nat) (remaining : Nat) (e : Nat),
      (∀ c ∈ cs, c ≠ []) → cs.flatten.length < remaining →
      fillLoop filled remaining ⟨cs, some e⟩ = (.ioError e, ⟨[], some e⟩) := by
  induction cs with
  | nil =>
    intro filled remaining e _ hlt
    cases remaining with
    | zero => exact absurd hlt (Nat.not_lt_zero _)
    | succ r => simp [fillLoop, ByteSource.readStep]
  | cons c rest ih =>
    intro filled remaining e hwf hlt
    obtain ⟨b, bs, rfl⟩ : ∃ b bs, c = b :: bs := by
      cases c with
      | nil => exact absurd rfl (hwf [] (by simp))
      | cons b bs => exact ⟨b, bs, rfl⟩
    have hwf' : ∀ d ∈ rest, d ≠ [] := fun d hd => hwf d (List.mem_cons_of_mem _ hd)
    simp only [List.flatten_cons, List.length_append, List.length_cons] at hlt
    cases remaining with
    | zero => exact absurd hlt (Nat.not_lt_zero _)
    | succ r =>
      have hbl : bs.length ≤ r := by omega
      have htake : bs.take r = bs := List.take_of_length_le hbl
      have hdrop : bs.drop r = [] := List.drop_eq_nil_of_le hbl
      have hlt' : rest.flatten.length < r - bs.length := by omega
      simp only [fillLoop, ByteSource.readStep, List.take_succ_cons, List.drop_succ_cons,
        htake, hdrop, List.isEmpty_nil, if_true, List.length_cons, Nat.succ_sub_succ]
      exact ih (filled ++ b :: bs) (r - bs.length) e hwf' hlt'

/-- Consuming every byte of a well-formed source consumes every chunk. -/
theorem dropBytes_flatten (cs : List (List Nat)) (hwf : ∀ c ∈ cs, c ≠ []) :
    dropBytes cs.flatten.length cs = [] := by
  induction cs with
  | nil => rfl
  | cons c rest ih =>
    obtain ⟨b, bs, rfl⟩ : ∃ b bs, c = b :: bs := by
      cases c with
      | nil => exact absurd rfl (hwf [] (by simp))
      | cons b bs => exact ⟨b, bs, rfl⟩
    have hwf' : ∀ d ∈ rest, d ≠ [] := fun d hd => hwf d (List.mem_cons_of_mem _ hd)
    have hlen : ((b :: bs) :: rest).flatten.length = (bs ++ rest.flatten).length + 1 := by
      simp
    rw [hlen]
    simp only [dropBytes, List.length_cons]
    have hcond : bs.length + 1 ≤ (bs ++ rest.flatten).length + 1 := by
      simp [List.length_append]
    rw [if_pos hcond]
    have harg : (bs ++ rest.flatten).length + 1 - (bs.length + 1) = rest.flatten.length := by
      simp [List.length_append]
    rw [harg]
    exact ih hwf'

/-- Claim C1: for every buffer length `N` and every well-formed source that
ends cleanly, the bounded read fails with the distinguished "unexpected end of
input" error exactly when the source provides some but fewer than `N` bytes —
so a partial, non-zero, less-than-requested read terminated by end-of-stream
always raises it, and it never arises otherwise (no silent short read). -/
theorem readExactOrEof_unexpectedEof_iff (N : Nat) (s : ByteSource)
    (hwf : ∀ c ∈ s.chunks, c ≠ []) (hend : s.errAfter = none) :
    (read_exact_or_eof N s).1 = .unexpectedEof ↔ 0 < s.total ∧ s.total < N := by
  obtain ⟨cs, err⟩ := s
  replace hend : err = none := hend
  subst hend
  replace hwf : ∀ c ∈ cs, c ≠ [] := hwf
  rcases Nat.lt_or_ge cs.flatten.length N with hlt | hge
  · rw [read_exact_or_eof, fillLoop_short_eof cs [] N hwf hlt]
    cases cs with
    | nil => simp [ByteSource.total]
    | cons c rest =>
      have hc : c ≠ [] := hwf c (by simp)
      have hclen : 0 < c.length := List.length_pos.mpr hc
      simp only [List.length_flatten, List.map_cons, List.sum_cons] at hlt
      simp [ByteSource.total, List.length_flatten]
      omega
  · rw [read_exact_or_eof, fillLoop_enough cs [] N none hwf hge]
    simp only [List.length_flatten] at hge
    simp [ByteSource.total, List.length_flatten]
    omega

/-- Concrete instance of claim C1: requesting 3 bytes from a source that
provides 2 bytes (in two reads) and then ends raises the "unexpected end of
input" failure. -/
theorem readExactOrEof_unexpectedEof_spot :
    (read_exact_or_eof 3 ⟨[[1], [2]], none⟩).1 = .unexpectedEof :=
  (readExactOrEof_unexpectedEof_iff 3 ⟨[[1], [2]], none⟩ (by decide) rfl).mpr (by decide)

/-- Claim C2: for every buffer length `N > 0`, reading from a source that is
already at end-of-stream returns success with zero bytes filled and leaves the
source unchanged — immediate end-of-stream is not an error. -/
theorem readExactOrEof_immediate_eof (N : Nat) (h : 0 < N) :
    read_exact_or_eof N ⟨[], none⟩ = (.success [], ⟨[], none⟩) := by
  cases N with
  | zero => exact absurd h (by omega)
  | succ r => simp [read_exact_or_eof, fillLoop, ByteSource.readStep]

/-- Concrete instance of claim C2 at `N = 1`. -/
theorem readExactOrEof_immediate_eof_spot :
    read_exact_or_eof 1 ⟨[], none⟩ = (.success [], ⟨[], none⟩) :=
  readExactOrEof_immediate_eof 1 (by decide)

/-- Claim C3: a lower-level I/O error raised by the source at any offset below
the requested length is propagated immediately and unchanged (same error
value), never reinterpreted as end-of-stream or as success. -/
theorem readExactOrEof_propagates_err (N : Nat) (s : ByteSource) (e : Nat)
    (hwf : ∀ c ∈ s.chunks, c ≠ []) (herr : s.errAfter = some e) (hlt : s.total < N) :
    read_exact_or_eof N s = (.ioError e, ⟨[], some e⟩) := by
  obtain ⟨cs, err⟩ := s
  replace herr : err = some e := herr
  subst herr
  replace hwf : ∀ c ∈ cs, c ≠ [] := hwf
  replace hlt : cs.flatten.length < N := hlt
  rw [read_exact_or_eof]
  exact fillLoop_short_err cs [] N e hwf hlt

/-- Concrete instance of claim C3: a source yielding one byte and then raising
error 7 makes a 2-byte bounded read surface error 7 itself. -/
theorem readExactOrEof_propagates_err_spot :
    read_exact_or_eof 2 ⟨[[1]], some 7⟩ = (.ioError 7, ⟨[], some 7⟩) :=
  readExactOrEof_propagates_err 2 ⟨[[1]], some 7⟩ 7 (by decide) rfl (by decide)

/-- Claim C4: a well-formed source providing exactly `N > 0` bytes fills the
length-`N` buffer completely: the call succeeds with precisely those `N` bytes
and leaves the source positioned immediately after them (fully consumed). -/
theorem readExactOrEof_full (s : ByteSource)
    (hwf : ∀ c ∈ s.chunks, c ≠ []) (hend : s.errAfter = none) (hpos : 0 < s.total) :
    read_exact_or_eof s.total s = (.success s.chunks.flatten, ⟨[], none⟩) := by
  obtain ⟨cs, err⟩ := s
  replace hend : err = none := hend
  subst hend
  replace hwf : ∀ c ∈ cs, c ≠ [] := hwf
  show fillLoop [] cs.flatten.length ⟨cs, none⟩ = _
  rw [fillLoop_enough cs [] cs.flatten.length none hwf (Nat.le_refl _)]
  rw [List.take_length, dropBytes_flatten cs hwf]
  simp

/-- Concrete instance of claim C4: a source providing exactly 3 bytes (in two
reads) fills a 3-byte buffer with them and is left fully consumed. -/
theorem readExactOrEof_full_spot :
    read_exact_or_eof 3 ⟨[[5], [6, 7]], none⟩ = (.success [5, 6, 7], ⟨[], none⟩) :=
  readExactOrEof_full ⟨[[5], [6, 7]], none⟩ (by decide) rfl (by decide)

/-- Claim C5: the top-level search index maps crate-name strings to document
objects, each crate name occurring as a key at most once; this artifact holds
exactly the single key "read_exact", mapped to an object value. -/
theorem searchIndex_single_unique_key :
    searchIndex.map Prod.fst = ["read_exact"] ∧
    (searchIndex.map Prod.fst).Nodup ∧
    (searchIndex.lookup "read_exact").map Json.isObj = some true := by
  refine ⟨rfl, ?_, rfl⟩
  decide

/-- Claim C6 as stated is refuted by the trait entry: its fifth positional
field is `null`, not a numeric cross-reference id, so the very first item tuple
of the artifact already fails the spec's shape. -/
theorem specItemShape_fails_on_trait :
    ((itemsOf readExactDoc)[0]?).map specItemShape = some false ∧
    (itemsOf readExactDoc).all specItemShape = false := by
  refine ⟨rfl, rfl⟩

/-- Claim C6, amended: every item descriptor is a positional tuple of exactly
six fields — a kind code, a name, a namespace, a doc string, an optional
numeric cross-reference id, and an optional parent-type reference. -/
theorem items_amended_shape :
    (itemsOf readExactDoc).all amendedItemShape = true := by
  rfl

/-- Claim C7: the document object has exactly the fields `doc` (a string),
`items` (a list) and `paths` (a list), in that order, and the items list keeps
its written order — the trait descriptor "ReadExactExt" (kind 8) precedes the
method descriptor "read_exact_or_eof" (kind 10). -/
theorem readExactDoc_fields_and_order :
    readExactDoc.keys = ["doc", "items", "paths"] ∧
    (readExactDoc.get "doc").map Json.isStr = some true ∧
    (readExactDoc.get "items").map Json.isArr = some true ∧
    (readExactDoc.get "paths").map Json.isArr = some true ∧
    (itemsOf readExactDoc).map itemName = [some "ReadExactExt", some "read_exact_or_eof"] ∧
    (itemsOf readExactDoc).map itemKind = [some 8, some 10] := by
  refine ⟨rfl, rfl, rfl, rfl, rfl, rfl⟩

/-- Claim C8: every non-null parent-type reference carried by an item
descriptor is a valid index into the same document's paths list. -/
theorem parentRefs_index_into_paths :
    (itemsOf readExactDoc).all (parentRefValid (pathsOf readExactDoc)) = true := by
  rfl

/-- Claim C9: the runtime trace of the artifact performs exactly one
construction of the table and, after it, exactly one external `initSearch`
call receiving the constructed table; no mutation happens at or after that
call (and the call's action carries no return value). -/
theorem programTrace_build_once_call_once :
    programTrace.countP JsAction.isAssign = 1 ∧
    programTrace.filter JsAction.isCall = [.callInitSearch (.obj searchIndex)] ∧
    noAssignAfterCall programTrace = true := by
  refine ⟨rfl, rfl, rfl⟩

/-- Claim C10: the items and paths lists are mutually consistent — every paths
entry is a kind-code/name pair; the unique item with a non-null parent
reference is the method "read_exact_or_eof" with reference 0; and paths entry 0
is kind 8, name "ReadExactExt", equal to the kind and name of the trait item
heading the items list. -/
theorem items_paths_consistent :
    (pathsOf readExactDoc).all isKindNamePair = true ∧
    ((itemsOf readExactDoc).filter hasParent).map itemName = [some "read_exact_or_eof"] ∧
    ((itemsOf readExactDoc).filter hasParent).map itemParentRef = [some (.num 0)] ∧
    ((pathsOf readExactDoc)[0]?).bind pathKind = some 8 ∧
    ((pathsOf readExactDoc)[0]?).bind pathName = some "ReadExactExt" ∧
    ((itemsOf readExactDoc)[0]?).bind itemKind = ((pathsOf readExactDoc)[0]?).bind pathKind ∧
    ((itemsOf readExactDoc)[0]?).bind itemName = ((pathsOf readExactDoc)[0]?).bind pathName := by
  refine ⟨rfl, rfl, rfl, rfl, rfl, rfl, rfl⟩
